import Mathlib

/-!
Verification of the whisperpocket voice pipeline (`src/listen.py`,
`src/stt-server/server.py`) against its natural-language specification.

Strings are embedded as `List Char`.  Python `re` operations used by the
code (`re.sub(r"[,.:;!?\-]+", " ", ...)`, `re.sub(r"^[\s,.:;!?\-]*\S+", ...)`,
`str.split()`, `str.strip()`, `str.lstrip(" ,.:;!?-")`, sorting with
`key=len, reverse=True`) are embedded as executable functions below, each
translated from the exact behaviour of the Python construct.
-/

namespace WhisperPocket

/-- Python `\s` (ASCII whitespace as used by `str.split`/`str.strip`). -/
def isPySpace (c : Char) : Bool :=
  c = ' ' ∨ c = '\t' ∨ c = '\n' ∨ c = '\r' ∨ c = '\x0b' ∨ c = '\x0c'

/-- The punctuation class `[,.:;!?\-]` of `_normalize` in `listen.py`. -/
def isPunctChar (c : Char) : Bool :=
  c = ',' ∨ c = '.' ∨ c = ':' ∨ c = ';' ∨ c = '!' ∨ c = '?' ∨ c = '-'

/-- The character class `[\s,.:;!?\-]` of the token-removal regex in `strip_wake`. -/
def isClassChar (c : Char) : Bool := isPySpace c || isPunctChar c

/-- Characters stripped by `remaining.lstrip(" ,.:;!?-")` in `strip_wake`. -/
def isLstripChar (c : Char) : Bool := c = ' ' || isPunctChar c

/-- Embeds `str.strip()` on the right: drop trailing whitespace. -/
def dropTrailingWs (s : List Char) : List Char :=
  (s.reverse.dropWhile isPySpace).reverse

/-- Python `str.strip()`. -/
def pyStrip (s : List Char) : List Char :=
  dropTrailingWs (s.dropWhile isPySpace)

/-- Embeds `re.sub(r"[,.:;!?\-]+", " ", s)`: replace each maximal punctuation run by
one space.  The boolean records whether we are inside a punctuation run. -/
def collapsePunctAux : Bool → List Char → List Char
  | _, [] => []
  | inRun, c :: rest =>
    if isPunctChar c then
      (if inRun then [] else [' ']) ++ collapsePunctAux true rest
    else c :: collapsePunctAux false rest

/-- Embeds `_normalize` of `listen.py`: lowercase, collapse punctuation runs to a
space, strip surrounding whitespace. -/
def pyNormalize (s : List Char) : List Char :=
  pyStrip (collapsePunctAux false (s.map Char.toLower))

/-- Python `str.split()` (split on whitespace runs, no empty tokens);
`acc` holds the current token reversed. -/
def splitWsAux (acc : List Char) : List Char → List (List Char)
  | [] => if acc.isEmpty then [] else [acc.reverse]
  | c :: rest =>
    if isPySpace c then
      if acc.isEmpty then splitWsAux [] rest
      else acc.reverse :: splitWsAux [] rest
    else splitWsAux (c :: acc) rest

/-- Python `str.split()`. -/
def splitWs (s : List Char) : List (List Char) := splitWsAux [] s

/-- Embeds `_normalize_tokens` of `listen.py`. -/
def normTokens (s : List Char) : List (List Char) := splitWs (pyNormalize s)

/-- Stable insertion used to model Python's stable
`sorted(wake_words, key=len, reverse=True)`: an element is inserted before
the first later element of length `≤` its own, keeping earlier equal-length
elements first. -/
def insertLenDesc (x : List Char) : List (List Char) → List (List Char)
  | [] => [x]
  | y :: ys => if y.length ≤ x.length then x :: y :: ys else y :: insertLenDesc x ys

/-- Embeds `sorted(wake_words, key=len, reverse=True)`: stable sort by raw
character length, descending.  Note the key is the length of the raw
(un-normalized) phrase string, exactly as in `listen.py`. -/
def sortLenDesc : List (List Char) → List (List Char)
  | [] => []
  | x :: xs => insertLenDesc x (sortLenDesc xs)

/-- Embeds `wake_match` of `listen.py` (the code's `_normalize(wake).split()` is
exactly `normTokens wake`). -/
def wake_match (text : List Char) (wakeWords : List (List Char)) : Bool :=
  (sortLenDesc wakeWords).any fun wake =>
    decide ((normTokens text).take (normTokens wake).length = normTokens wake)

/-- One application of `re.sub(r"^[\s,.:;!?\-]*\S+", "", s, count=1)`,
step 1: the regex engine consumes the class prefix greedily and backtracks
until `\S+` can start; `largestJ s j` finds the largest `j' ≤ j` such that
`s[j']` exists and is not whitespace. -/
def largestJ (s : List Char) : Nat → Option Nat
  | 0 => if isPySpace (s.getD 0 ' ') then none else some 0
  | j + 1 =>
    if isPySpace (s.getD (j + 1) ' ') then largestJ s j else some (j + 1)

/-- Embeds `re.sub(r"^[\s,.:;!?\-]*\S+", "", s, count=1)`: if the anchored pattern
matches, the match is `s[0:j]` (class characters) followed by the maximal
nonwhitespace run starting at `j`, where `j` is the largest backtracking
position within the maximal class-character prefix. -/
def removeOneToken (s : List Char) : List Char :=
  match largestJ s (s.takeWhile isClassChar).length with
  | none => s
  | some j => (s.drop j).dropWhile fun c => !isPySpace c

/-- The value `strip_wake` computes for a matched wake phrase of `n`
normalized tokens: apply the token-removal regex `n` times, strip residual
leading `" ,.:;!?-"`, and fall back to the whole text when the result is
empty (the Python `... or text`). -/
def stripCandidate (text : List Char) (n : Nat) : List Char :=
  if (removeOneToken^[n] text).dropWhile isLstripChar = [] then text
  else (removeOneToken^[n] text).dropWhile isLstripChar

/-- The loop body of `strip_wake`: try the sorted wake phrases in order and
strip at the first whose normalized tokens prefix-match. -/
def stripWakeGo (text : List Char) (tokens : List (List Char)) :
    List (List Char) → List Char
  | [] => text
  | wake :: rest =>
    if tokens.take (normTokens wake).length = normTokens wake then
      stripCandidate text (normTokens wake).length
    else stripWakeGo text tokens rest

/-- Embeds `strip_wake` of `listen.py`. -/
def strip_wake (text : List Char) (wakeWords : List (List Char)) : List Char :=
  stripWakeGo text (normTokens text) (sortLenDesc wakeWords)

/-! ### The speech segmenter (`capture_speech`)

A frame is abstracted to the two per-frame classifications `capture_speech`
computes — `energy_dbfs(samples) < energy_threshold` (field `below`) and
`vad.is_speech(frame, SAMPLE_RATE)` (field `vad`) — plus an identifier
standing for the raw PCM bytes, so that segment contents and ordering are
observable. -/

structure Frame where
  below : Bool
  vad : Bool
  idx : Nat
deriving DecidableEq, Repr

/-- Why a segment was finalized: the silence-timeout return or the
max-duration return of `capture_speech`. -/
inductive Reason where
  | silenceTimeout
  | maxDuration
deriving DecidableEq, Repr

/-- The three frame-count parameters computed at the top of
`capture_speech` from the module constants. -/
structure SegParams where
  silenceFrames : Nat
  minSpeechFrames : Nat
  maxFrames : Nat
deriving DecidableEq, Repr

/-- Embeds `listen.py` constants: `SILENCE_MS // FRAME_MS = 50`,
`MIN_SPEECH_MS // FRAME_MS = 15`, `MAX_SEGMENT_S * 1000 // FRAME_MS = 500`. -/
def listenParams : SegParams := ⟨1000 / 20, 300 / 20, 10 * 1000 / 20⟩

/-- Mutable state of the `capture_speech` loop: `recording`, `speech_count`,
`silent_count`, `speech_buf`. -/
structure SegState where
  recording : Bool
  speechCount : Nat
  silentCount : Nat
  buf : List Frame
deriving DecidableEq, Repr

/-- Initial state of `capture_speech` (also the state after a false-trigger
reset, which clears the buffer and both counters and leaves `Recording`). -/
def segInit : SegState := ⟨false, 0, 0, []⟩

/-- The recording-silence block of `capture_speech` (lines 86–98 and
112–124 are textually identical): increment `silent_count`, append the
frame, and on silence-timeout either finalize (if enough speech was
accumulated) or discard the buffer as a false trigger. -/
def segSilence (p : SegParams) (st : SegState) (f : Frame) :
    SegState ⊕ (List Frame × Reason) :=
  if p.silenceFrames ≤ st.silentCount + 1 then
    if p.minSpeechFrames ≤ st.speechCount then
      Sum.inr (st.buf ++ [f], Reason.silenceTimeout)
    else Sum.inl segInit
  else Sum.inl ⟨st.recording, st.speechCount, st.silentCount + 1, st.buf ++ [f]⟩

/-- One frame of the `capture_speech` loop: the energy gate is consulted
first; only frames at or above the threshold reach the VAD call. -/
def segStep (p : SegParams) (st : SegState) (f : Frame) :
    SegState ⊕ (List Frame × Reason) :=
  if f.below then
    if st.recording then segSilence p st f else Sum.inl st
  else if f.vad then
    if p.maxFrames ≤ st.speechCount + 1 then
      Sum.inr (st.buf ++ [f], Reason.maxDuration)
    else Sum.inl ⟨true, st.speechCount + 1, 0, st.buf ++ [f]⟩
  else if st.recording then segSilence p st f
  else Sum.inl st

/-- Run `capture_speech` on a finite frame stream: returns the first
finalized segment with its reason and the frames left unconsumed when the
function returns, or `none` if the stream ends with no segment emitted. -/
def runSeg (p : SegParams) : SegState → List Frame →
    Option ((List Frame × Reason) × List Frame)
  | _, [] => none
  | st, f :: rest =>
    match segStep p st f with
    | Sum.inl st' => runSeg p st' rest
    | Sum.inr out => some (out, rest)

/-- A frame that takes the speech branch of `capture_speech`: loud enough
and VAD-positive. -/
def isSpeechFrame (f : Frame) : Bool := !f.below && f.vad

/-- The number of speech-classified frames in a segment; for the states
reachable by `capture_speech` this coincides with the `speech_count`
counter. -/
def speechFrames (seg : List Frame) : Nat := (seg.filter isSpeechFrame).length

/-- The frame stream of the spec's segmenter scenario (1-based indices):
frames 1–20 non-speech, 21–40 speech, 41–95 non-speech. -/
def scenFrame (i : Nat) : Frame :=
  if i < 20 then ⟨true, false, i + 1⟩
  else if i < 40 then ⟨false, true, i + 1⟩
  else ⟨true, false, i + 1⟩

/-- The 95-frame scenario stream. -/
def scenFrames : List Frame := (List.range 95).map scenFrame

/-- The scenario parameters: silence-timeout 50 frames, minimum speech 10
frames (max-duration limit not exercised; the code's own value 500). -/
def scenParams : SegParams := ⟨50, 10, 500⟩

/-! ### The barge-in detector (`StopWordListener._listen`) -/

/-- Mutable state of the `StopWordListener._listen` loop: `speech_frames`,
`speech_count`, `silent_count`. -/
structure StopState where
  buf : List Frame
  speechCount : Nat
  silentCount : Nat
deriving DecidableEq, Repr

/-- Initial state of the detector loop (also the state after a
no-stop-word transcription check, which clears the buffer and counters). -/
def stopInit : StopState := ⟨[], 0, 0⟩

/-- Embeds `silence_frames = 500 // FRAME_MS` of `StopWordListener._listen`. -/
def stopSilenceFrames : Nat := 500 / 20

/-- Result of one detector step: continue with a new state, or stop-word
found (`self._stopped.set()` followed by `return`). -/
inductive StopRes where
  | cont (st : StopState)
  | triggered
deriving DecidableEq, Repr

/-- One frame of `StopWordListener._listen`'s inner loop.  Note the loop
calls `self._vad.is_speech(frame, SAMPLE_RATE)` on every frame with no
energy gate.  `stopHit seg` abstracts the whisper transcription of the
buffered segment plus the stop-word containment test (a transcription
exception behaves as `false`). -/
def stopStep (stopHit : List Frame → Bool) (st : StopState) (f : Frame) :
    StopRes :=
  if f.vad then StopRes.cont ⟨st.buf ++ [f], st.speechCount + 1, 0⟩
  else if 0 < st.speechCount then
    if stopSilenceFrames ≤ st.silentCount + 1 ∧ 3 ≤ st.speechCount then
      if stopHit (st.buf ++ [f]) then StopRes.triggered
      else StopRes.cont stopInit
    else StopRes.cont ⟨st.buf ++ [f], st.speechCount, st.silentCount + 1⟩
  else StopRes.cont st

/-! ### Response chunking (`split_sentences`) -/

/-- Embeds `re.sub(r"\*\*", "", text)`: delete the leftmost non-overlapping `**`
pairs. -/
def subDoubleStar : List Char → List Char
  | [] => []
  | [c] => [c]
  | c :: d :: rest =>
    if c = '*' && d = '*' then subDoubleStar rest
    else c :: subDoubleStar (d :: rest)

/-- Embeds `re.sub(r"\*", "", text)`: delete every remaining asterisk. -/
def subStar (s : List Char) : List Char := s.filter fun c => !(c = '*')

/-- Embeds `re.sub(r"`[^`]*`", "", text)`: delete each leftmost backtick-delimited
span (a backtick with no later closing backtick matches nothing and is
kept). -/
def subCodeSpan : List Char → List Char
  | [] => []
  | c :: rest =>
    if c = '`' then
      match hdw : rest.dropWhile (fun d => !(d = '`')) with
      | [] => c :: subCodeSpan rest
      | _ :: tl => subCodeSpan tl
    else c :: subCodeSpan rest
termination_by s => s.length
decreasing_by
  · simp only [List.length_cons]; omega
  · have h1 : (rest.dropWhile (fun d => !(d = '`'))).length ≤ rest.length :=
      (List.dropWhile_suffix _).sublist.length_le
    rw [hdw] at h1
    simp only [List.length_cons] at h1 ⊢
    omega
  · simp only [List.length_cons]; omega

/-- Embeds `re.sub(r"`", "", text)`: delete every remaining backtick. -/
def subTick (s : List Char) : List Char := s.filter fun c => !(c = '`')

/-- The alternation `https?://` of the URL regex: on success, the text
after the scheme marker. -/
def urlRest : List Char → Option (List Char)
  | 'h' :: 't' :: 't' :: 'p' :: 's' :: ':' :: '/' :: '/' :: r => some r
  | 'h' :: 't' :: 't' :: 'p' :: ':' :: '/' :: '/' :: r => some r
  | _ => none

theorem urlRest_suffix : ∀ {s r : List Char}, urlRest s = some r →
    r <:+ s ∧ r.length + 7 ≤ s.length := by
  intro s r h
  rw [urlRest.eq_def] at h
  split at h
  · obtain rfl := Option.some.inj h
    refine ⟨⟨['h', 't', 't', 'p', 's', ':', '/', '/'], rfl⟩, ?_⟩
    simp only [List.length_cons]
    omega
  · obtain rfl := Option.some.inj h
    refine ⟨⟨['h', 't', 't', 'p', ':', '/', '/'], rfl⟩, ?_⟩
    simp only [List.length_cons]
    omega
  · exact absurd h (by simp)

/-- Embeds `re.sub(r"https?://\S+", "", text)`: delete each scheme marker together
with the maximal nonwhitespace run after it; the regex requires at least
one nonwhitespace character after `//`. -/
def subUrl : List Char → List Char
  | [] => []
  | c :: rest =>
    match hu : urlRest (c :: rest) with
    | some r =>
      match r with
      | [] => c :: subUrl rest
      | d :: r' =>
        if isPySpace d then c :: subUrl rest
        else subUrl (r'.dropWhile fun x => !isPySpace x)
    | none => c :: subUrl rest
termination_by s => s.length
decreasing_by
  · simp only [List.length_cons]; omega
  · simp only [List.length_cons]; omega
  · have h1 := (urlRest_suffix hu).2
    have h2 : (r'.dropWhile fun x => !isPySpace x).length ≤ r'.length :=
      (List.dropWhile_suffix _).sublist.length_le
    simp only [List.length_cons] at h1 ⊢
    omega
  · simp only [List.length_cons]; omega

/-- The markdown-stripping preamble of `split_sentences` (the five
`re.sub` calls, in order). -/
def mdStrip (s : List Char) : List Char :=
  subUrl (subTick (subCodeSpan (subStar (subDoubleStar s))))

/-- Embeds `text.split("\n")` (keeps empty lines). -/
def splitNl : List Char → List (List Char)
  | [] => [[]]
  | c :: rest =>
    if c = '\n' then [] :: splitNl rest
    else
      match splitNl rest with
      | [] => [[c]]
      | l :: ls => (c :: l) :: ls

/-- Embeds `re.sub(r"\s+", " ", t)`: replace each maximal whitespace run by one
space; the boolean records whether we are inside a run. -/
def collapseWsAux : Bool → List Char → List Char
  | _, [] => []
  | inRun, c :: rest =>
    if isPySpace c then
      (if inRun then [] else [' ']) ++ collapseWsAux true rest
    else c :: collapseWsAux false rest

/-- Embeds `re.sub(r"\s+", " ", t)`. -/
def collapseWs (s : List Char) : List Char := collapseWsAux false s

/-- Embeds `" ".join(buf)`. -/
def joinSpace : List (List Char) → List Char
  | [] => []
  | [x] => x
  | x :: xs => x ++ ' ' :: joinSpace xs

/-- Embeds `re.match(r"^#+\s", stripped)`: one or more hashes then a whitespace
character. -/
def isHeadingLine (s : List Char) : Bool :=
  !(s.takeWhile fun c => c = '#').isEmpty &&
    (match s.dropWhile fun c => c = '#' with
     | c :: _ => isPySpace c
     | [] => false)

/-- Embeds `re.sub(r"^#+\s+", "", stripped).strip()`. -/
def headingBody (s : List Char) : List Char :=
  pyStrip ((s.dropWhile fun c => c = '#').dropWhile isPySpace)

/-- Embeds `re.match(r"^[-•*]\s", stripped)`. -/
def isBulletLine : List Char → Bool
  | c :: d :: _ => (c = '-' || c = '•' || c = '*') && isPySpace d
  | _ => false

/-- Embeds `re.sub(r"^[-•*]\s+", "", stripped).strip()`. -/
def bulletBody (s : List Char) : List Char :=
  pyStrip ((s.drop 1).dropWhile isPySpace)

/-- Embeds `re.match(r"^\d+[.)]\s", stripped)`. -/
def isNumberLine (s : List Char) : Bool :=
  !(s.takeWhile Char.isDigit).isEmpty &&
    (match s.dropWhile Char.isDigit with
     | p :: w :: _ => (p = '.' || p = ')') && isPySpace w
     | _ => false)

/-- Embeds `re.sub(r"^\d+[.)]\s+", "", stripped).strip()`. -/
def numberBody (s : List Char) : List Char :=
  pyStrip (((s.dropWhile Char.isDigit).drop 1).dropWhile isPySpace)

/-- The `chunks`/`buf` pair of the line loop in `split_sentences`. -/
structure ChunkState where
  chunks : List (List Char)
  buf : List (List Char)
deriving DecidableEq, Repr

/-- Embeds `flush()`: join the buffered lines with spaces, strip, collapse
whitespace, and append the result as a chunk when it has at least three
characters; the buffer is cleared either way. -/
def flushBuf (st : ChunkState) : ChunkState :=
  if 3 ≤ (collapseWs (pyStrip (joinSpace st.buf))).length then
    ⟨st.chunks ++ [collapseWs (pyStrip (joinSpace st.buf))], []⟩
  else ⟨st.chunks, []⟩

/-- The heading/bullet/numbered-item branches: flush, then append the
item when it has at least three characters. -/
def emitAfterFlush (st : ChunkState) (item : List Char) : ChunkState :=
  if 3 ≤ item.length then ⟨(flushBuf st).chunks ++ [item], []⟩
  else ⟨(flushBuf st).chunks, []⟩

/-- One line of the `for line in lines` loop of `split_sentences`. -/
def lineStep (st : ChunkState) (line : List Char) : ChunkState :=
  if pyStrip line = [] then flushBuf st
  else if isHeadingLine (pyStrip line) then
    emitAfterFlush st (headingBody (pyStrip line))
  else if isBulletLine (pyStrip line) then
    emitAfterFlush st (bulletBody (pyStrip line))
  else if isNumberLine (pyStrip line) then
    emitAfterFlush st (numberBody (pyStrip line))
  else ⟨st.chunks, st.buf ++ [pyStrip line]⟩

/-- The line pass of `split_sentences`: fold the loop over the lines of
the markdown-stripped text and perform the final `flush()`. -/
def lineChunks (text : List Char) : List (List Char) :=
  (flushBuf ((splitNl text).foldl lineStep ⟨[], []⟩)).chunks

/-- Embeds `re.split(r"(?<=[.!?])\s+(?=[A-Z])", chunk)`: split at each maximal
whitespace run that is preceded by `.`, `!` or `?` and followed by an
uppercase letter.  `prev` is the character before the current position
(`' '` initially and after a split, where the previous character is part
of a consumed whitespace run and hence never in `[.!?]`). -/
def sentSplitAux : Char → List Char → List (List Char)
  | _, [] => [[]]
  | prev, c :: rest =>
    if (prev = '.' || prev = '!' || prev = '?') && isPySpace c &&
        (match rest.dropWhile isPySpace with
         | d :: _ => d.isUpper
         | [] => false) then
      [] :: sentSplitAux ' ' (rest.dropWhile isPySpace)
    else
      match sentSplitAux c rest with
      | [] => [[c]]
      | l :: ls => (c :: l) :: ls
termination_by _ s => s.length
decreasing_by
  · have h2 : (rest.dropWhile isPySpace).length ≤ rest.length :=
      (List.dropWhile_suffix _).sublist.length_le
    simp only [List.length_cons]
    omega
  · simp only [List.length_cons]; omega

/-- The final pass of `split_sentences`: sentence-split each chunk, strip
each part, keep parts of at least three characters. -/
def sentenceParts (chunk : List Char) : List (List Char) :=
  ((sentSplitAux ' ' chunk).map pyStrip).filter fun p => 3 ≤ p.length

/-- Embeds `split_sentences` of `listen.py`. -/
def split_sentences (text : List Char) : List (List Char) :=
  ((lineChunks (mdStrip text)).map sentenceParts).flatten

/-- Nonwhitespace characters, the claim's observable for chunk ordering. -/
def nonWs (c : Char) : Bool := !isPySpace c

/-- A string with no leading and no trailing whitespace (the shape of every
`str.strip()` result). -/
def NoEdgeWs (s : List Char) : Prop :=
  (∀ c, s.head? = some c → isPySpace c = false) ∧
  (∀ c, s.getLast? = some c → isPySpace c = false)

/-! ### The LLM subprocess (`run_llm`) and the main loop's response step -/

/-- Outcome of the `subprocess.run` call in `run_llm`: normal completion
with the captured stdout, `subprocess.TimeoutExpired`, or any other
exception. -/
inductive LLMOutcome where
  | ok (stdout : List Char)
  | timeout
  | failure
deriving DecidableEq, Repr

/-- Embeds `run_llm` of `listen.py`: on completion `result.stdout.strip()`; on
timeout or any other exception the empty string. -/
def run_llm (o : LLMOutcome) : List Char :=
  match o with
  | LLMOutcome.ok out => pyStrip out
  | LLMOutcome.timeout => []
  | LLMOutcome.failure => []

/-- The response handling of `main` (lines 666–674): after `run_llm`, an
empty response prints "(no response)", resets `busy`, and `continue`s the
listening loop; otherwise the response is handed to `speak_response`.
The result is the text spoken, or `none` when nothing is spoken and the
loop returns to listening immediately. -/
def mainRespond (o : LLMOutcome) : Option (List Char) :=
  if run_llm o = [] then none else some (run_llm o)

/-! ### The STT server endpoint (`server.py`) -/

/-- Embeds `np.frombuffer(body, dtype=np.int16)` on little-endian bytes: pairs of
bytes become signed 16-bit values; `none` models the `ValueError` numpy
raises when the buffer size is not a multiple of the element size. -/
def decodeInt16LE : List Nat → Option (List Int)
  | [] => some []
  | [_] => none
  | b0 :: b1 :: rest =>
    (decodeInt16LE rest).map fun l =>
      (if b0 + 256 * b1 < 32768 then (b0 + 256 * b1 : Int)
       else (b0 + 256 * b1 : Int) - 65536) :: l

/-- Embeds `pcm16.astype(np.float32) / 32768.0`: every int16 value `v` maps to
`v / 32768`, which is exactly representable in float32, so the scaling is
embedded exactly in `ℚ`. -/
def scaleSamples (pcm : List Int) : List ℚ :=
  pcm.map fun v => (v : ℚ) / 32768

/-- The `POST /transcribe` handler of `server.py`, parameterized by the STT
capability `stt` (`_whisper.transcribe` plus the text extraction) and by
the measured wall-clock duration.  The `.ok` payload carries the JSON reply
`(text, duration_ms)` together with the list of sample buffers passed to
the capability, so invocation counts are observable; `.error ()` models the
uncaught decode exception propagating out of the handler. -/
def transcribeEndpoint (stt : List ℚ → List Char) (elapsedMs : Nat)
    (body : List Nat) : Except Unit ((List Char × Nat) × List (List ℚ)) :=
  if body.length = 0 then Except.ok (([], 0), [])
  else
    match decodeInt16LE body with
    | none => Except.error ()
    | some pcm16 =>
      Except.ok ((pyStrip (stt (scaleSamples pcm16)), elapsedMs),
        [scaleSamples pcm16])

/-! ### The pipelined playback loop (`speak_response`)

`speak_response` is sequential in the main thread except for the one
background synthesis task, whose only observable effect is the value the
tail of the loop assigns to `next_wav`; both it and the two set-once
cancellation flags are embedded as oracles.  `should_stop()` reads are
serialized by a poll clock: the `k`-th read returns `stop k`.  `synth i`
is the audio produced for chunk `i` (`none`: synthesis failed or returned
no audio), `dur i` is the number of `while sd.get_stream().active` polls
chunk `i` stays active for, and the trace records each `sd.play` call. -/

/-- One `sd.play` call: chunk index, poll clock at play start, and whether
the cancellation poll cut the chunk mid-playback. -/
structure PlayEv where
  idx : Nat
  start : Nat
  cut : Bool
deriving DecidableEq, Repr

/-- The `while sd.get_stream().active` loop: the stream is active for `d`
polls; each iteration reads `should_stop()`; on `true`, `sd.stop()` cuts
the chunk.  Returns the cut flag and the clock after the loop. -/
def playPolls (stop : Nat → Bool) : Nat → Nat → Bool × Nat
  | 0, t => (false, t)
  | d + 1, t => if stop t then (true, t + 1) else playPolls stop d (t + 1)

/-- The `for i, chunk in enumerate(chunks)` loop of `speak_response`.
Arguments after `len`: chunks remaining, current index `i`, poll clock,
the synchronously synthesized chunk-0 audio, the `next_wav` variable, and
the events so far.  Faithful to the code: the top-of-loop poll breaks out;
`wav` is `next_wav` for `i > 0`; a `None` wav `continue`s (skipping the
tail, so `next_wav` keeps its stale value); otherwise the chunk is played
under the cancellation poll, the post-playback poll breaks out, and the
tail joins the background task and assigns `next_wav`. -/
def speakAux (stop : Nat → Bool) (synth : Nat → Option Nat) (dur : Nat → Nat)
    (len : Nat) :
    Nat → Nat → Nat → Option Nat → Option Nat → List PlayEv → List PlayEv
  | 0, _, _, _, _, acc => acc
  | rem + 1, i, t, wavIn, nextWav, acc =>
    if stop t then acc
    else
      match if i = 0 then wavIn else nextWav with
      | none => speakAux stop synth dur len rem (i + 1) (t + 1) wavIn nextWav acc
      | some _ =>
        if stop (playPolls stop (dur i) (t + 1)).2 then
          acc ++ [⟨i, t + 1, (playPolls stop (dur i) (t + 1)).1⟩]
        else
          speakAux stop synth dur len rem (i + 1)
            ((playPolls stop (dur i) (t + 1)).2 + 1) wavIn
            (if i + 1 < len then synth (i + 1) else nextWav)
            (acc ++ [⟨i, t + 1, (playPolls stop (dur i) (t + 1)).1⟩])

/-- The playback trace of `speak_response` on `len` chunks: empty responses
return immediately; otherwise chunk 0 is synthesized synchronously and the
loop runs. -/
def speakTrace (stop : Nat → Bool) (synth : Nat → Option Nat)
    (dur : Nat → Nat) (len : Nat) : List PlayEv :=
  if len = 0 then []
  else speakAux stop synth dur len len 0 0 (synth 0) none []

/-- Every play in the trace started before any poll observed the
cancellation signal: all polls earlier than the play's start clock read
`false`. -/
def eventsOk (stop : Nat → Bool) (evs : List PlayEv) : Bool :=
  evs.all fun e => (List.range e.start).all fun u => !stop u

/-- The cancellation signal is set-once: both `threading.Event` flags
(`StopWordListener._stopped`, `KeyListener.pressed`) are only set, never
cleared, during a playback session. -/
def StopMono (stop : Nat → Bool) : Prop :=
  ∀ m n, m ≤ n → stop m = true → stop n = true

/-! ### Lemmas about the wake-word matcher -/

theorem mem_insertLenDesc {x y : List Char} {l : List (List Char)} :
    x ∈ insertLenDesc y l ↔ x = y ∨ x ∈ l := by
  induction l with
  | nil => simp [insertLenDesc]
  | cons z zs ih =>
    rw [insertLenDesc]
    split
    · simp
    · simp only [List.mem_cons, ih]
      tauto

theorem mem_sortLenDesc {x : List Char} {l : List (List Char)} :
    x ∈ sortLenDesc l ↔ x ∈ l := by
  induction l with
  | nil => simp [sortLenDesc]
  | cons z zs ih => simp [sortLenDesc, mem_insertLenDesc, ih]

theorem removeOneToken_suffix (s : List Char) : removeOneToken s <:+ s := by
  rw [removeOneToken]
  cases largestJ s (s.takeWhile isClassChar).length with
  | none => exact List.suffix_refl s
  | some j => exact (List.dropWhile_suffix _).trans (List.drop_suffix j s)

theorem iterate_removeOneToken_suffix (n : Nat) (s : List Char) :
    removeOneToken^[n] s <:+ s := by
  induction n generalizing s with
  | zero => exact List.suffix_refl s
  | succ n ih =>
    rw [Function.iterate_succ_apply]
    exact (ih (removeOneToken s)).trans (removeOneToken_suffix s)

theorem stripCandidate_suffix (text : List Char) (n : Nat) :
    stripCandidate text n <:+ text := by
  rw [stripCandidate]
  split
  · exact List.suffix_refl text
  · exact (List.dropWhile_suffix _).trans (iterate_removeOneToken_suffix n text)

theorem stripCandidate_ne_nil (text : List Char) (n : Nat) (h : text ≠ []) :
    stripCandidate text n ≠ [] := by
  rw [stripCandidate]
  split
  · exact h
  · assumption

theorem stripWakeGo_spec (text : List Char) (toks : List (List Char))
    (l : List (List Char))
    (h : (l.any fun w => decide (toks.take (normTokens w).length = normTokens w)) = true) :
    ∃ w ∈ l, toks.take (normTokens w).length = normTokens w ∧
      stripWakeGo text toks l = stripCandidate text (normTokens w).length := by
  induction l with
  | nil => simp at h
  | cons w rest ih =>
    by_cases hw : toks.take (normTokens w).length = normTokens w
    · exact ⟨w, List.mem_cons_self w rest, hw, by rw [stripWakeGo]; simp [hw]⟩
    · have h' : (rest.any fun w => decide (toks.take (normTokens w).length = normTokens w)) = true := by
        simpa [hw] using h
      obtain ⟨w', hw', hc, he⟩ := ih h'
      exact ⟨w', List.mem_cons_of_mem w hw', hc, by rw [stripWakeGo]; simp only [hw, if_false]; exact he⟩

/-! ### Claims about wake-word matching -/

/-- Claim C1, counterexample.  Take phrase `A = "hey......"` (normalized
tokens `["hey"]`) and `B = "hey pal"` (normalized tokens `["hey", "pal"]`):
`A`'s tokens are a proper prefix of `B`'s, and both prefix-match the
transcript `"hey pal go"`.  The claim says `strip_wake` removes `B`'s two
tokens (which would give `"go"`, the value of `stripCandidate _ 2`), but the
code sorts by raw string length (`key=len`), `A` is raw-longer than `B`, so
only `A`'s one token is removed and the result is `"pal go"`. -/
theorem C1_counterexample :
    normTokens "hey......".toList = ["hey".toList] ∧
    normTokens "hey pal".toList = ["hey".toList, "pal".toList] ∧
    wake_match "hey pal go".toList ["hey......".toList] = true ∧
    wake_match "hey pal go".toList ["hey pal".toList] = true ∧
    strip_wake "hey pal go".toList ["hey......".toList, "hey pal".toList] = "pal go".toList ∧
    stripCandidate "hey pal go".toList 2 = "go".toList ∧
    ("pal go".toList : List Char) ≠ "go".toList := by
  decide

/-- Claim C1, amended.  Matching prefers the phrase whose *raw
(un-normalized) string* is longest (`sorted(wake_words, key=len,
reverse=True)`), not the phrase with the most normalized tokens.  When `A`'s
normalized tokens are a proper prefix of `B`'s, both prefix-match the
transcript, and `B`'s raw string is strictly longer than `A`'s, `strip_wake`
strips by `B`'s token count — stripping with `{A, B}` configured equals
stripping with `B` alone. -/
theorem C1_amended (text A B : List Char)
    (hA : (normTokens text).take (normTokens A).length = normTokens A)
    (hAB : (normTokens B).take (normTokens A).length = normTokens A)
    (hproper : (normTokens A).length < (normTokens B).length)
    (hB : (normTokens text).take (normTokens B).length = normTokens B)
    (hlen : A.length < B.length) :
    strip_wake text [A, B] = strip_wake text [B] := by
  have hsort : sortLenDesc [A, B] = [B, A] := by
    simp [sortLenDesc, insertLenDesc, Nat.not_le.mpr hlen]
  rw [strip_wake, hsort, stripWakeGo, if_pos hB, strip_wake]
  rw [show sortLenDesc [B] = [B] from rfl, stripWakeGo, if_pos hB]

/-- Witness for `C1_amended` at `A = "hey"`, `B = "hey pal"`,
transcript `"hey pal go"`. -/
theorem C1_witness :
    ((normTokens "hey pal go".toList).take (normTokens "hey".toList).length
        = normTokens "hey".toList) ∧
    ((normTokens "hey pal".toList).take (normTokens "hey".toList).length
        = normTokens "hey".toList) ∧
    (normTokens "hey".toList).length < (normTokens "hey pal".toList).length ∧
    ((normTokens "hey pal go".toList).take (normTokens "hey pal".toList).length
        = normTokens "hey pal".toList) ∧
    ("hey".toList : List Char).length < ("hey pal".toList : List Char).length ∧
    strip_wake "hey pal go".toList ["hey".toList, "hey pal".toList]
      = strip_wake "hey pal go".toList ["hey pal".toList] :=
  ⟨by decide, by decide, by decide, by decide, by decide,
    C1_amended "hey pal go".toList "hey".toList "hey pal".toList
      (by decide) (by decide) (by decide) (by decide) (by decide)⟩

/-- Claim C3, counterexample.  A transcript that consists solely of a
matched wake phrase does *not* yield the empty remainder: the final
`remaining.lstrip(...) or text` of `strip_wake` falls back to the original
transcript when the stripped remainder is empty, so
`strip_wake "hey pal" ["hey pal"]` returns `"hey pal"`, not `""`. -/
theorem C3_counterexample :
    wake_match "hey pal".toList ["hey pal".toList] = true ∧
    strip_wake "hey pal".toList ["hey pal".toList] = "hey pal".toList ∧
    ("hey pal".toList : List Char) ≠ [] := by
  decide

/-- Claim C3, amended.  For every transcript in which some wake phrase
prefix-matches, `strip_wake` applies the leading-token-removal regex exactly
the matched phrase's normalized-token-count many times and trims residual
leading punctuation/whitespace (`stripCandidate`); the result is a suffix of
the original transcript (so the remainder's casing and punctuation are
preserved verbatim), and it is never the empty string for a nonempty
transcript — when the stripped remainder is empty, `strip_wake` returns the
original transcript unchanged rather than the empty remainder. -/
theorem C3_amended (text : List Char) (ws : List (List Char))
    (h : wake_match text ws = true) :
    strip_wake text ws <:+ text ∧
    (text ≠ [] → strip_wake text ws ≠ []) ∧
    ∃ w ∈ ws, (normTokens text).take (normTokens w).length = normTokens w ∧
      strip_wake text ws = stripCandidate text (normTokens w).length := by
  rw [wake_match] at h
  obtain ⟨w, hw, hc, he⟩ := stripWakeGo_spec text (normTokens text) (sortLenDesc ws) h
  rw [strip_wake, he]
  exact ⟨stripCandidate_suffix text _,
    fun hne => stripCandidate_ne_nil text _ hne,
    w, mem_sortLenDesc.mp hw, hc, rfl⟩

/-- Witness for `C3_amended` at transcript `"Hey Pal, what's the weather"`
with wake phrase `"hey pal"` (the spec's own scenario). -/
theorem C3_witness :
    strip_wake "Hey Pal, what's the weather".toList ["hey pal".toList]
        <:+ "Hey Pal, what's the weather".toList ∧
    ("Hey Pal, what's the weather".toList ≠ ([] : List Char) →
      strip_wake "Hey Pal, what's the weather".toList ["hey pal".toList] ≠ []) ∧
    ∃ w ∈ ["hey pal".toList],
      (normTokens "Hey Pal, what's the weather".toList).take (normTokens w).length
          = normTokens w ∧
      strip_wake "Hey Pal, what's the weather".toList ["hey pal".toList]
          = stripCandidate "Hey Pal, what's the weather".toList (normTokens w).length :=
  C3_amended "Hey Pal, what's the weather".toList ["hey pal".toList] (by decide)

/-- Claim C10: if the configured wake-word list contains the empty string,
`wake_match` returns true for every transcript, because the empty phrase
normalizes to zero tokens and the empty token sequence is a prefix of every
token list. -/
theorem C10_empty_phrase_matches_everything (text : List Char)
    (ws : List (List Char)) (h : [] ∈ ws) :
    wake_match text ws = true := by
  rw [wake_match, List.any_eq_true]
  refine ⟨[], mem_sortLenDesc.mpr h, ?_⟩
  have hnil : normTokens ([] : List Char) = [] := rfl
  simp [hnil]

/-- Witness for `C10_empty_phrase_matches_everything`: the empty wake phrase
makes `wake_match` accept `"anything"` (and by the same theorem, the empty
transcript). -/
theorem C10_witness :
    (([] : List Char) ∈ [([] : List Char)]) ∧
    wake_match "anything".toList [[]] = true ∧
    wake_match ([] : List Char) [[]] = true :=
  ⟨List.mem_singleton.mpr rfl,
    C10_empty_phrase_matches_everything "anything".toList [[]]
      (List.mem_singleton.mpr rfl),
    C10_empty_phrase_matches_everything [] [[]]
      (List.mem_singleton.mpr rfl)⟩

/-! ### Lemmas about the speech segmenter -/

theorem segStep_inl_inv (p : SegParams) (st : SegState) (f : Frame)
    (st' : SegState)
    (hinv : st.recording = true → 1 ≤ st.speechCount)
    (hcnt : st.speechCount = speechFrames st.buf)
    (h : segStep p st f = Sum.inl st') :
    (st'.recording = true → 1 ≤ st'.speechCount) ∧
    st'.speechCount = speechFrames st'.buf := by
  unfold segStep segSilence at h
  split_ifs at h <;>
    first
    | (obtain rfl := Sum.inl.inj h
       simp_all [speechFrames, List.filter_append, isSpeechFrame, segInit,
         List.filter])
    | simp at h

theorem segStep_inr_bound (p : SegParams) (st : SegState) (f : Frame)
    (seg : List Frame) (r : Reason)
    (hinv : st.recording = true → 1 ≤ st.speechCount)
    (hcnt : st.speechCount = speechFrames st.buf)
    (h : segStep p st f = Sum.inr (seg, r)) :
    1 ≤ speechFrames seg ∧
    (r = Reason.silenceTimeout → p.minSpeechFrames ≤ speechFrames seg) := by
  unfold segStep segSilence at h
  split_ifs at h <;>
    first
    | (simp only [Sum.inr.injEq, Prod.mk.injEq] at h
       obtain ⟨rfl, rfl⟩ := h
       simp_all [speechFrames, List.filter_append, isSpeechFrame,
         List.filter])
    | simp at h

theorem runSeg_inv (p : SegParams) (fs : List Frame) : ∀ (st : SegState),
    (st.recording = true → 1 ≤ st.speechCount) →
    st.speechCount = speechFrames st.buf →
    ∀ seg r rest, runSeg p st fs = some ((seg, r), rest) →
    1 ≤ speechFrames seg ∧
    (r = Reason.silenceTimeout → p.minSpeechFrames ≤ speechFrames seg) := by
  induction fs with
  | nil => intro st _ _ seg r rest h; simp [runSeg] at h
  | cons f fs ih =>
    intro st hinv hcnt seg r rest h
    cases hstep : segStep p st f with
    | inl st' =>
      simp only [runSeg, hstep] at h
      obtain ⟨h1, h2⟩ := segStep_inl_inv p st f st' hinv hcnt hstep
      exact ih st' h1 h2 seg r rest h
    | inr out =>
      cases out with
      | mk s rr =>
        simp only [runSeg, hstep, Option.some.injEq, Prod.mk.injEq] at h
        obtain ⟨⟨rfl, rfl⟩, rfl⟩ := h
        exact segStep_inr_bound p st f s rr hinv hcnt hstep

/-! ### Claims about the speech segmenter and barge-in detector -/

/-- Claim C2: for every finite frame stream fed to `capture_speech`
(started in its initial state), an emitted segment always contains at least
one speech-classified frame, and a segment finalized for reason
silence-timeout contains at least `min_speech_frames` speech-classified
frames; only the max-duration return is exempt from the minimum. -/
theorem C2_min_speech_on_finalize (p : SegParams) (fs seg rest : List Frame)
    (r : Reason) (h : runSeg p segInit fs = some ((seg, r), rest)) :
    1 ≤ speechFrames seg ∧
    (r = Reason.silenceTimeout → p.minSpeechFrames ≤ speechFrames seg) :=
  runSeg_inv p fs segInit (by intro hr; simp [segInit] at hr)
    (by simp [segInit, speechFrames]) seg r rest h

/-- Witness for `C2_min_speech_on_finalize`: one speech frame followed by
one quiet frame, with silence-timeout 1 and minimum 1, finalizes a
two-frame segment containing one speech frame. -/
theorem C2_witness :
    1 ≤ speechFrames [⟨false, true, 0⟩, ⟨true, false, 1⟩] ∧
    (Reason.silenceTimeout = Reason.silenceTimeout →
      (⟨1, 1, 10⟩ : SegParams).minSpeechFrames
        ≤ speechFrames [⟨false, true, 0⟩, ⟨true, false, 1⟩]) :=
  C2_min_speech_on_finalize ⟨1, 1, 10⟩
    [⟨false, true, 0⟩, ⟨true, false, 1⟩]
    [⟨false, true, 0⟩, ⟨true, false, 1⟩] [] Reason.silenceTimeout (by decide)

/-- Claim C4: on the scenario stream (20 non-speech, 20 speech, 55
non-speech frames) with silence-timeout 50 and minimum 10,
`capture_speech` finalizes exactly one segment, consisting of frames 21
through 90 in order (the 20 speech frames plus 50 trailing silence frames),
for reason silence-timeout, with frames 91–95 unconsumed; restarted from
the initial (idle) state on the remaining frames it emits nothing. -/
theorem C4_scenario :
    runSeg scenParams segInit scenFrames
      = some (((scenFrames.drop 20).take 70, Reason.silenceTimeout),
          scenFrames.drop 90) ∧
    runSeg scenParams segInit (scenFrames.drop 90) = none := by
  decide

/-- Claim C5, counterexample.  A frame below the energy threshold but
VAD-positive (`below = true`, `vad = true`): the primary segmenter
classifies it as non-speech without consulting the VAD (it stays idle),
but the barge-in detector's per-frame step — which has no energy gate —
classifies it as *speech*: the frame is appended to `speech_frames` and
`speech_count` is incremented, and the outcome changes when only the VAD
bit changes, showing the VAD is consulted. -/
theorem C5_counterexample :
    (Frame.mk true true 0).below = true ∧
    stopStep (fun _ => false) stopInit ⟨true, true, 0⟩
      = StopRes.cont ⟨[⟨true, true, 0⟩], 1, 0⟩ ∧
    stopStep (fun _ => false) stopInit ⟨true, false, 0⟩ = StopRes.cont stopInit ∧
    segStep listenParams segInit ⟨true, true, 0⟩ = Sum.inl segInit := by
  decide

/-- Claim C5, amended.  The energy gate exists only in the primary
segmenter: there, a below-threshold frame is never counted as speech and
can never trigger the max-duration (speech-driven) return, whatever its
VAD bit; the barge-in detector applies no energy gate at all — its
classification is decided solely by the VAD result, so a below-threshold
VAD-positive frame is classified as speech. -/
theorem C5_amended :
    (∀ (p : SegParams) (st : SegState) (f : Frame), f.below = true →
      (∀ st', segStep p st f = Sum.inl st' → st'.speechCount ≤ st.speechCount) ∧
      (∀ seg r, segStep p st f = Sum.inr (seg, r) → r = Reason.silenceTimeout)) ∧
    (∀ (stopHit : List Frame → Bool) (st : StopState) (f : Frame),
      f.below = true → f.vad = true →
      stopStep stopHit st f
        = StopRes.cont ⟨st.buf ++ [f], st.speechCount + 1, 0⟩) := by
  constructor
  · intro p st f hb
    constructor
    · intro st' h
      unfold segStep segSilence at h
      split_ifs at h <;>
        first
        | (obtain rfl := Sum.inl.inj h
           simp [segInit])
        | simp_all
    · intro seg r h
      unfold segStep segSilence at h
      split_ifs at h <;>
        first
        | (simp only [Sum.inr.injEq, Prod.mk.injEq] at h
           obtain ⟨h1, rfl⟩ := h
           rfl)
        | simp_all
  · intro stopHit st f _ hv
    unfold stopStep
    simp [hv]

/-- Witness for `C5_amended` at concrete inputs: the detector counts a
below-threshold VAD-positive frame as speech, and a below-threshold frame
finalizing the primary segmenter does so with reason silence-timeout. -/
theorem C5_witness :
    stopStep (fun _ => false) stopInit ⟨true, true, 5⟩
      = StopRes.cont ⟨[⟨true, true, 5⟩], 1, 0⟩ ∧
    Reason.silenceTimeout = Reason.silenceTimeout :=
  ⟨C5_amended.2 (fun _ => false) stopInit ⟨true, true, 5⟩ rfl rfl,
    (C5_amended.1 ⟨1, 0, 5⟩ ⟨true, 0, 0, []⟩ ⟨true, true, 7⟩ rfl).2
      [⟨true, true, 7⟩] Reason.silenceTimeout (by decide)⟩

/-! ### Lemmas about the playback loop -/

theorem playPolls_le (stop : Nat → Bool) (d : Nat) :
    ∀ t, t ≤ (playPolls stop d t).2 := by
  induction d with
  | zero => intro t; exact le_refl t
  | succ d ih =>
    intro t
    rw [playPolls]
    by_cases hs : stop t = true
    · simp [hs]
    · simp only [hs, if_false]
      exact le_trans (Nat.le_succ t) (ih (t + 1))

theorem playPolls_cut (stop : Nat → Bool) (d : Nat) :
    ∀ t, (playPolls stop d t).1 = true →
      ∃ u, t ≤ u ∧ (playPolls stop d t).2 = u + 1 ∧ stop u = true := by
  induction d with
  | zero => intro t h; simp [playPolls] at h
  | succ d ih =>
    intro t h
    rw [playPolls] at h ⊢
    by_cases hs : stop t = true
    · exact ⟨t, le_refl t, by simp [hs], hs⟩
    · simp only [hs, if_false] at h ⊢
      obtain ⟨u, hu1, hu2, hu3⟩ := ih (t + 1) h
      exact ⟨u, le_trans (Nat.le_succ t) hu1, hu2, hu3⟩

theorem playPolls_uncut (stop : Nat → Bool) (d : Nat) :
    ∀ t, (playPolls stop d t).1 = false →
      ∀ u, t ≤ u → u < (playPolls stop d t).2 → stop u = false := by
  induction d with
  | zero =>
    intro t _ u hu1 hu2
    simp only [playPolls] at hu2
    omega
  | succ d ih =>
    intro t h u hu1 hu2
    rw [playPolls] at h hu2
    by_cases hs : stop t = true
    · simp [hs] at h
    · simp only [hs, if_false] at h hu2
      rcases Nat.eq_or_lt_of_le hu1 with rfl | hlt
      · exact Bool.eq_false_iff.mpr (fun hc => hs hc)
      · exact ih (t + 1) h u hlt hu2

theorem eventsOk_append (stop : Nat → Bool) (a b : List PlayEv) :
    eventsOk stop (a ++ b) = (eventsOk stop a && eventsOk stop b) :=
  List.all_append

theorem speakAux_ok (stop : Nat → Bool) (synth : Nat → Option Nat)
    (dur : Nat → Nat) (len : Nat) (hmono : StopMono stop) :
    ∀ rem i t wavIn nextWav acc,
      (∀ u, u < t → stop u = false) →
      eventsOk stop acc = true →
      eventsOk stop (speakAux stop synth dur len rem i t wavIn nextWav acc) = true := by
  intro rem
  induction rem with
  | zero =>
    intro i t wavIn nextWav acc _ hacc
    exact hacc
  | succ rem ih =>
    intro i t wavIn nextWav acc hclk hacc
    rw [speakAux]
    by_cases hs : stop t = true
    · simp only [hs, if_true]
      exact hacc
    · have hs' : stop t = false := Bool.eq_false_iff.mpr (fun hc => hs hc)
      simp only [hs', Bool.false_eq_true, if_false]
      have hclk' : ∀ u, u < t + 1 → stop u = false := by
        intro u hu
        rcases Nat.lt_succ_iff_lt_or_eq.mp hu with hu' | rfl
        · exact hclk u hu'
        · exact hs'
      cases hwav : (if i = 0 then wavIn else nextWav) with
      | none => exact ih (i + 1) (t + 1) wavIn nextWav acc hclk' hacc
      | some w =>
        have hacc' : eventsOk stop
            (acc ++ [⟨i, t + 1, (playPolls stop (dur i) (t + 1)).1⟩]) = true := by
          rw [eventsOk_append, hacc, Bool.true_and]
          simp only [eventsOk, List.all_cons, List.all_nil, Bool.and_true]
          rw [List.all_eq_true]
          intro u hu
          rw [List.mem_range] at hu
          simp [hclk' u hu]
        by_cases hpost : stop (playPolls stop (dur i) (t + 1)).2 = true
        · simp only [hpost, if_true]
          exact hacc'
        · have hpost' : stop (playPolls stop (dur i) (t + 1)).2 = false :=
            Bool.eq_false_iff.mpr (fun hc => hpost hc)
          simp only [hpost', Bool.false_eq_true, if_false]
          have hres : (playPolls stop (dur i) (t + 1)).1 = false := by
            cases hr : (playPolls stop (dur i) (t + 1)).1 with
            | false => rfl
            | true =>
              obtain ⟨u, _, hu2, hu3⟩ := playPolls_cut stop (dur i) (t + 1) hr
              have := hmono u (playPolls stop (dur i) (t + 1)).2 (by omega) hu3
              rw [this] at hpost'
              exact absurd hpost' (by simp)
          have hclk'' : ∀ u, u < (playPolls stop (dur i) (t + 1)).2 + 1 →
              stop u = false := by
            intro u hu
            rcases Nat.lt_succ_iff_lt_or_eq.mp hu with hu' | rfl
            · by_cases hut : u < t + 1
              · exact hclk' u hut
              · exact playPolls_uncut stop (dur i) (t + 1) hres u (by omega) hu'
            · exact hpost'
          exact ih (i + 1) ((playPolls stop (dur i) (t + 1)).2 + 1) wavIn
            (if i + 1 < len then synth (i + 1) else nextWav)
            (acc ++ [⟨i, t + 1, (playPolls stop (dur i) (t + 1)).1⟩])
            hclk'' hacc'

/-! ### Lemmas about response chunking: chunk length -/

theorem head?_dropWhile_not (p : Char → Bool) :
    ∀ (l : List Char) {c : Char}, (l.dropWhile p).head? = some c → p c = false := by
  intro l
  induction l with
  | nil => intro c h; simp at h
  | cons x xs ih =>
    intro c h
    by_cases hx : p x = true
    · rw [List.dropWhile_cons_of_pos hx] at h
      exact ih h
    · rw [List.dropWhile_cons_of_neg hx] at h
      simp only [List.head?_cons, Option.some.injEq] at h
      subst h
      exact Bool.eq_false_iff.mpr hx

theorem getLast?_mem_self : ∀ {l : List Char} {a : Char}, l.getLast? = some a → a ∈ l := by
  intro l
  induction l with
  | nil => intro a h; simp at h
  | cons x xs ih =>
    intro a h
    cases xs with
    | nil =>
      simp only [List.getLast?_singleton, Option.some.injEq] at h
      simp [h]
    | cons y ys =>
      rw [List.getLast?_cons_cons] at h
      exact List.mem_cons_of_mem x (ih h)

theorem noEdgeWs_pyStrip (s : List Char) : NoEdgeWs (pyStrip s) := by
  constructor
  · intro c hc
    rw [pyStrip, dropTrailingWs, List.head?_reverse] at hc
    have hne : (s.dropWhile isPySpace).reverse.dropWhile isPySpace ≠ [] := by
      intro he
      rw [he] at hc
      simp at hc
    have hw := List.getLast?_append_of_ne_nil
      ((s.dropWhile isPySpace).reverse.takeWhile isPySpace) hne
    rw [List.takeWhile_append_dropWhile, List.getLast?_reverse] at hw
    exact head?_dropWhile_not isPySpace s (hw.trans hc)
  · intro c hc
    rw [pyStrip, dropTrailingWs, List.getLast?_reverse] at hc
    exact head?_dropWhile_not isPySpace _ hc

theorem collapseWsAux_of_nonWs :
    ∀ (s : List Char), (∀ c ∈ s, isPySpace c = false) →
      ∀ b, collapseWsAux b s = s := by
  intro s
  induction s with
  | nil => intro _ b; rfl
  | cons x xs ih =>
    intro h b
    rw [collapseWsAux, h x (List.mem_cons_self x xs)]
    simp only [Bool.false_eq_true, if_false]
    rw [ih (fun c hc => h c (List.mem_cons_of_mem x hc)) false]

theorem collapseWsAux_append_nonWs :
    ∀ (t s : List Char), (∀ c ∈ t, isPySpace c = false) →
      collapseWsAux false (t ++ s) = t ++ collapseWsAux false s := by
  intro t
  induction t with
  | nil => intro s _; rfl
  | cons x xs ih =>
    intro s h
    rw [List.cons_append, collapseWsAux, h x (List.mem_cons_self x xs)]
    simp only [Bool.false_eq_true, if_false, List.cons_append]
    rw [ih s (fun c hc => h c (List.mem_cons_of_mem x hc))]

theorem collapseWsAux_true_ne_nil :
    ∀ (s : List Char), (∃ c ∈ s, isPySpace c = false) →
      collapseWsAux true s ≠ [] := by
  intro s
  induction s with
  | nil => intro h; simp at h
  | cons x xs ih =>
    intro h he
    obtain ⟨c, hc, hcf⟩ := h
    rw [collapseWsAux] at he
    by_cases hx : isPySpace x = true
    · rw [hx] at he
      simp only [if_true, List.nil_append] at he
      rcases List.mem_cons.mp hc with rfl | hcxs
      · rw [hx] at hcf
        exact absurd hcf (by simp)
      · exact ih ⟨c, hcxs, hcf⟩ he
    · rw [Bool.eq_false_iff.mpr hx] at he
      simp at he

theorem collapseWs_length_ge (s : List Char) (hs : NoEdgeWs s)
    (hlen : 3 ≤ s.length) : 3 ≤ (collapseWs s).length := by
  by_cases hws : ∀ c ∈ s, isPySpace c = false
  · rw [collapseWs, collapseWsAux_of_nonWs s hws false]
    exact hlen
  · push_neg at hws
    obtain ⟨w0, hw0mem, hw0⟩ := hws
    have hsplit := List.takeWhile_append_dropWhile (fun c => !isPySpace c) s
    have hd_ne : s.dropWhile (fun c => !isPySpace c) ≠ [] := by
      intro he
      have hts := hsplit
      rw [he, List.append_nil] at hts
      have hmem : w0 ∈ s.takeWhile (fun c => !isPySpace c) := by
        rw [hts]; exact hw0mem
      have h2 := List.mem_takeWhile_imp hmem
      simp only [Bool.not_eq_true'] at h2
      exact hw0 h2
    obtain ⟨w, u, hd⟩ : ∃ w u, s.dropWhile (fun c => !isPySpace c) = w :: u := by
      cases hc : s.dropWhile (fun c => !isPySpace c) with
      | nil => exact absurd hc hd_ne
      | cons a b => exact ⟨a, b, rfl⟩
    have hw_sp : isPySpace w = true := by
      have := head?_dropWhile_not (fun c => !isPySpace c) s (c := w) (by rw [hd]; rfl)
      simpa using this
    have ht_nonws : ∀ c ∈ s.takeWhile (fun c => !isPySpace c), isPySpace c = false := by
      intro c hcmem
      have := List.mem_takeWhile_imp hcmem
      simpa using this
    have ht_ne : s.takeWhile (fun c => !isPySpace c) ≠ [] := by
      intro he
      have hhead : s.head? = some w := by
        conv_lhs => rw [← hsplit]
        rw [he, List.nil_append, hd]
        rfl
      have := hs.1 w hhead
      rw [hw_sp] at this
      exact absurd this (by simp)
    have hu_ne : u ≠ [] := by
      intro he
      have hlast : s.getLast? = some w := by
        conv_lhs => rw [← hsplit]
        rw [hd, he, List.getLast?_append_of_ne_nil _ (List.cons_ne_nil w [])]
        rfl
      have := hs.2 w hlast
      rw [hw_sp] at this
      exact absurd this (by simp)
    have hu_nonws : ∃ c ∈ u, isPySpace c = false := by
      obtain ⟨z, hz⟩ : ∃ z, u.getLast? = some z := by
        cases hg : u.getLast? with
        | none => exact absurd (List.getLast?_eq_none_iff.mp hg) hu_ne
        | some z => exact ⟨z, rfl⟩
      have hzs : s.getLast? = some z := by
        conv_lhs => rw [← hsplit]
        rw [hd, List.getLast?_append_of_ne_nil _ (List.cons_ne_nil w u),
          show w :: u = [w] ++ u from rfl,
          List.getLast?_append_of_ne_nil [w] hu_ne]
        exact hz
      exact ⟨z, getLast?_mem_self hz, hs.2 z hzs⟩
    have hcal : collapseWs s
        = s.takeWhile (fun c => !isPySpace c) ++ (' ' :: collapseWsAux true u) := by
      conv_lhs => rw [collapseWs, ← hsplit, hd]
      rw [collapseWsAux_append_nonWs _ _ ht_nonws]
      congr 1
      rw [collapseWsAux, hw_sp]
      simp
    rw [hcal]
    have h1 : 1 ≤ (s.takeWhile (fun c => !isPySpace c)).length := by
      cases hc : s.takeWhile (fun c => !isPySpace c) with
      | nil => exact absurd hc ht_ne
      | cons _ _ => simp
    have h2 : 1 ≤ (collapseWsAux true u).length := by
      cases hcc : collapseWsAux true u with
      | nil => exact absurd hcc (collapseWsAux_true_ne_nil u hu_nonws)
      | cons _ _ => simp
    simp only [List.length_append, List.length_cons]
    omega

theorem sentenceParts_collapse_len (chunk : List Char) :
    ∀ c ∈ sentenceParts chunk, 3 ≤ (collapseWs c).length := by
  intro c hc
  simp only [sentenceParts, List.mem_filter, List.mem_map] at hc
  obtain ⟨⟨p, _, rfl⟩, hlen⟩ := hc
  exact collapseWs_length_ge _ (noEdgeWs_pyStrip p) (by simpa using hlen)

/-! ### Lemmas about response chunking: chunk order -/

theorem subDoubleStar_sublist (s : List Char) :
    List.Sublist (subDoubleStar s) s := by
  induction s using subDoubleStar.induct with
  | case1 =>
    rw [subDoubleStar]
  | case2 c =>
    rw [subDoubleStar]
  | case3 c d rest h ih =>
    rw [subDoubleStar, if_pos h]
    exact ih.trans ((List.sublist_cons_self d rest).trans
      (List.sublist_cons_self c (d :: rest)))
  | case4 c d rest h ih =>
    rw [subDoubleStar, if_neg h]
    exact ih.cons₂ c

theorem subCodeSpan_tick_nil (rest : List Char)
    (hdw : rest.dropWhile (fun d => !(d = '`')) = []) :
    subCodeSpan ('`' :: rest) = '`' :: subCodeSpan rest := by
  rw [subCodeSpan.eq_2]
  split
  · split
    · rfl
    · rename_i heq
      rw [hdw] at heq
      cases heq
  · rename_i hne
    exact absurd rfl hne

theorem subCodeSpan_tick_cons (rest : List Char) (x : Char) (tl : List Char)
    (hdw : rest.dropWhile (fun d => !(d = '`')) = x :: tl) :
    subCodeSpan ('`' :: rest) = subCodeSpan tl := by
  rw [subCodeSpan.eq_2]
  split
  · split
    · rename_i heq
      rw [hdw] at heq
      cases heq
    · rename_i y tl' heq
      rw [hdw] at heq
      cases heq
      rfl
  · rename_i hne
    exact absurd rfl hne

theorem subCodeSpan_other (c : Char) (rest : List Char) (h : ¬ c = '`') :
    subCodeSpan (c :: rest) = c :: subCodeSpan rest := by
  rw [subCodeSpan.eq_2, if_neg h]

theorem subCodeSpan_sublist (s : List Char) :
    List.Sublist (subCodeSpan s) s := by
  have H : ∀ n (s : List Char), s.length ≤ n → List.Sublist (subCodeSpan s) s := by
    intro n
    induction n with
    | zero =>
      intro s hs
      have he : s = [] := List.length_eq_zero.mp (Nat.le_zero.mp hs)
      subst he
      rw [subCodeSpan.eq_1]
    | succ n ih =>
      intro s hs
      cases s with
      | nil => rw [subCodeSpan.eq_1]
      | cons c rest =>
        simp only [List.length_cons] at hs
        by_cases hc : c = '`'
        · subst hc
          cases hdw : rest.dropWhile (fun d => !(d = '`')) with
          | nil =>
            rw [subCodeSpan_tick_nil rest hdw]
            exact (ih rest (by omega)).cons₂ '`'
          | cons x tl =>
            rw [subCodeSpan_tick_cons rest x tl hdw]
            have h0 : List.Sublist (List.dropWhile (fun d => !(d = '`')) rest) rest :=
              (List.dropWhile_suffix _).sublist
            rw [hdw] at h0
            have hlen : tl.length ≤ n := by
              have h1 := h0.length_le
              simp only [List.length_cons] at h1
              omega
            exact ((ih tl hlen).trans ((List.sublist_cons_self x tl).trans h0)).trans
              (List.sublist_cons_self '`' rest)
        · rw [subCodeSpan_other c rest hc]
          exact (ih rest (by omega)).cons₂ c
  exact H s.length s (le_refl _)

theorem subUrl_none (c : Char) (rest : List Char)
    (hu : urlRest (c :: rest) = none) :
    subUrl (c :: rest) = c :: subUrl rest := by
  rw [subUrl.eq_2]
  split
  · rename_i r heq
    rw [hu] at heq
    cases heq
  · rfl

theorem subUrl_some_nil (c : Char) (rest : List Char)
    (hu : urlRest (c :: rest) = some []) :
    subUrl (c :: rest) = c :: subUrl rest := by
  rw [subUrl.eq_2]
  split
  · rename_i r heq
    rw [hu] at heq
    cases heq
    rfl
  · rename_i heq
    rw [hu] at heq

theorem subUrl_some_ws (c : Char) (rest : List Char) (d : Char) (r' : List Char)
    (hu : urlRest (c :: rest) = some (d :: r')) (hd : isPySpace d = true) :
    subUrl (c :: rest) = c :: subUrl rest := by
  rw [subUrl.eq_2]
  split
  · rename_i r heq
    rw [hu] at heq
    cases heq
    simp only [hd, if_true]
  · rename_i heq
    rw [hu] at heq

theorem subUrl_some_go (c : Char) (rest : List Char) (d : Char) (r' : List Char)
    (hu : urlRest (c :: rest) = some (d :: r')) (hd : isPySpace d = false) :
    subUrl (c :: rest) = subUrl (r'.dropWhile fun x => !isPySpace x) := by
  rw [subUrl.eq_2]
  split
  · rename_i r heq
    rw [hu] at heq
    cases heq
    simp only [hd, Bool.false_eq_true, if_false]
  · rename_i heq
    rw [hu] at heq
    exact Option.noConfusion heq

theorem subUrl_sublist (s : List Char) : List.Sublist (subUrl s) s := by
  have H : ∀ n (s : List Char), s.length ≤ n → List.Sublist (subUrl s) s := by
    intro n
    induction n with
    | zero =>
      intro s hs
      have he : s = [] := List.length_eq_zero.mp (Nat.le_zero.mp hs)
      subst he
      rw [subUrl.eq_1]
    | succ n ih =>
      intro s hs
      cases s with
      | nil => rw [subUrl.eq_1]
      | cons c rest =>
        simp only [List.length_cons] at hs
        cases hu : urlRest (c :: rest) with
        | none =>
          rw [subUrl_none c rest hu]
          exact (ih rest (by omega)).cons₂ c
        | some r =>
          cases r with
          | nil =>
            rw [subUrl_some_nil c rest hu]
            exact (ih rest (by omega)).cons₂ c
          | cons d r' =>
            by_cases hd : isPySpace d = true
            · rw [subUrl_some_ws c rest d r' hu hd]
              exact (ih rest (by omega)).cons₂ c
            · have hd' : isPySpace d = false := Bool.eq_false_iff.mpr hd
              rw [subUrl_some_go c rest d r' hu hd']
              obtain ⟨hsuf, hlen7⟩ := urlRest_suffix hu
              have h0 : List.Sublist (r'.dropWhile fun x => !isPySpace x) r' :=
                (List.dropWhile_suffix _).sublist
              have hdl : (r'.dropWhile fun x => !isPySpace x).length ≤ n := by
                have h1 := h0.length_le
                simp only [List.length_cons] at hlen7
                omega
              exact ((ih _ hdl).trans h0).trans
                ((List.sublist_cons_self d r').trans hsuf.sublist)
  exact H s.length s (le_refl _)

theorem mdStrip_sublist (s : List Char) : List.Sublist (mdStrip s) s := by
  rw [mdStrip]
  exact ((((subUrl_sublist _).trans (List.filter_sublist _)).trans
    (subCodeSpan_sublist _)).trans (List.filter_sublist _)).trans
    (subDoubleStar_sublist s)

theorem splitNl_ne_nil (s : List Char) : splitNl s ≠ [] := by
  cases s with
  | nil => simp [splitNl]
  | cons c rest =>
    rw [splitNl]
    by_cases hc : c = '\n'
    · simp [hc]
    · rw [if_neg hc]
      cases splitNl rest <;> simp

theorem splitNl_flatten (s : List Char) :
    (splitNl s).flatten = s.filter fun c => !(c = '\n') := by
  induction s with
  | nil => rfl
  | cons c rest ih =>
    rw [splitNl]
    by_cases hc : c = '\n'
    · subst hc
      rw [if_pos rfl]
      simp only [List.flatten_cons, List.nil_append, ih, List.filter_cons]
      simp
    · rw [if_neg hc]
      cases hsp : splitNl rest with
      | nil => exact absurd hsp (splitNl_ne_nil rest)
      | cons l ls =>
        have h2 := ih
        rw [hsp] at h2
        simp only [List.flatten_cons] at h2
        simp only [List.flatten_cons, List.cons_append, h2, List.filter_cons]
        simp [hc]

theorem joinSpace_filter :
    ∀ (bs : List (List Char)),
      (joinSpace bs).filter nonWs = bs.flatten.filter nonWs := by
  intro bs
  induction bs with
  | nil => rfl
  | cons x xs ih =>
    cases xs with
    | nil => simp [joinSpace]
    | cons y ys =>
      rw [show joinSpace (x :: y :: ys) = x ++ ' ' :: joinSpace (y :: ys) from rfl,
        List.flatten_cons, List.filter_append, List.filter_append]
      congr 1

theorem collapseWsAux_filter :
    ∀ (s : List Char) (b : Bool),
      (collapseWsAux b s).filter nonWs = s.filter nonWs := by
  intro s
  induction s with
  | nil => intro b; rfl
  | cons c rest ih =>
    intro b
    rw [collapseWsAux]
    by_cases hc : isPySpace c = true
    · rw [hc]
      simp only [if_true]
      rw [List.filter_append]
      have hsp : List.filter nonWs (if b = true then [] else [' ']) = [] := by
        cases b <;> simp [nonWs, isPySpace]
      rw [hsp, List.nil_append, ih true, List.filter_cons]
      have hnw : nonWs c = false := by simp [nonWs, hc]
      rw [hnw]
      simp
    · rw [if_neg hc]
      rw [List.filter_cons, List.filter_cons, ih false]

theorem pyStrip_sublist (s : List Char) : List.Sublist (pyStrip s) s := by
  rw [pyStrip, dropTrailingWs]
  have h1 : List.Sublist ((s.dropWhile isPySpace).reverse.dropWhile isPySpace)
      (s.dropWhile isPySpace).reverse := (List.dropWhile_suffix _).sublist
  have h2 := h1.reverse
  rw [List.reverse_reverse] at h2
  exact h2.trans (List.dropWhile_suffix _).sublist

theorem flushBuf_buf_nil (st : ChunkState) : (flushBuf st).buf = [] := by
  rw [flushBuf]
  split <;> rfl

theorem flushBuf_chunks_filter (st : ChunkState) :
    List.Sublist ((flushBuf st).chunks.flatten.filter nonWs)
      ((st.chunks ++ st.buf).flatten.filter nonWs) := by
  have h2 : List.Sublist ((collapseWs (pyStrip (joinSpace st.buf))).filter nonWs)
      (st.buf.flatten.filter nonWs) := by
    rw [collapseWs, collapseWsAux_filter]
    have h3 := (pyStrip_sublist (joinSpace st.buf)).filter nonWs
    rwa [joinSpace_filter st.buf] at h3
  rw [List.flatten_append st.chunks st.buf, List.filter_append, flushBuf]
  split
  · rw [List.flatten_append st.chunks _, List.filter_append]
    refine List.Sublist.append (List.Sublist.refl _) ?_
    simpa using h2
  · exact List.sublist_append_left _ _

theorem emitAfterFlush_filter (st : ChunkState) (item line : List Char)
    (hitem : List.Sublist (item.filter nonWs) (line.filter nonWs)) :
    List.Sublist
      (((emitAfterFlush st item).chunks ++ (emitAfterFlush st item).buf).flatten.filter nonWs)
      (((st.chunks ++ st.buf).flatten.filter nonWs) ++ line.filter nonWs) := by
  have hbase := flushBuf_chunks_filter st
  rw [emitAfterFlush]
  split
  · rw [List.append_nil, List.flatten_append ((flushBuf st).chunks) [item],
      List.filter_append]
    refine List.Sublist.append hbase ?_
    rw [List.flatten_cons, List.flatten_nil, List.append_nil]
    exact hitem
  · rw [List.append_nil]
    exact hbase.trans (List.sublist_append_left _ _)

theorem headingBody_sublist (x : List Char) :
    List.Sublist (headingBody x) x := by
  rw [headingBody]
  exact (pyStrip_sublist _).trans ((List.dropWhile_suffix isPySpace).sublist.trans
    (List.dropWhile_suffix (fun c => c = '#')).sublist)

theorem bulletBody_sublist (x : List Char) :
    List.Sublist (bulletBody x) x := by
  rw [bulletBody]
  exact (pyStrip_sublist _).trans ((List.dropWhile_suffix isPySpace).sublist.trans
    (List.drop_sublist 1 x))

theorem numberBody_sublist (x : List Char) :
    List.Sublist (numberBody x) x := by
  rw [numberBody]
  exact (pyStrip_sublist _).trans ((List.dropWhile_suffix isPySpace).sublist.trans
    ((List.drop_sublist 1 _).trans (List.dropWhile_suffix Char.isDigit).sublist))

theorem lineStep_filter (st : ChunkState) (line : List Char) :
    List.Sublist
      (((lineStep st line).chunks ++ (lineStep st line).buf).flatten.filter nonWs)
      (((st.chunks ++ st.buf).flatten.filter nonWs) ++ line.filter nonWs) := by
  rw [lineStep]
  split_ifs with h1 h2 h3 h4
  · rw [flushBuf_buf_nil st, List.append_nil]
    exact (flushBuf_chunks_filter st).trans (List.sublist_append_left _ _)
  · exact emitAfterFlush_filter st _ line
      (((headingBody_sublist (pyStrip line)).trans (pyStrip_sublist line)).filter nonWs)
  · exact emitAfterFlush_filter st _ line
      (((bulletBody_sublist (pyStrip line)).trans (pyStrip_sublist line)).filter nonWs)
  · exact emitAfterFlush_filter st _ line
      (((numberBody_sublist (pyStrip line)).trans (pyStrip_sublist line)).filter nonWs)
  · show List.Sublist
      ((st.chunks ++ (st.buf ++ [pyStrip line])).flatten.filter nonWs)
      (((st.chunks ++ st.buf).flatten.filter nonWs) ++ line.filter nonWs)
    rw [← List.append_assoc, List.flatten_append (st.chunks ++ st.buf) _,
      List.filter_append]
    refine List.Sublist.append (List.Sublist.refl _) ?_
    rw [List.flatten_cons, List.flatten_nil, List.append_nil]
    exact (pyStrip_sublist line).filter nonWs

theorem foldl_lineStep_filter :
    ∀ (lines : List (List Char)) (st : ChunkState),
      List.Sublist
        ((((lines.foldl lineStep st).chunks ++ (lines.foldl lineStep st).buf).flatten).filter nonWs)
        (((st.chunks ++ st.buf).flatten.filter nonWs) ++ lines.flatten.filter nonWs) := by
  intro lines
  induction lines with
  | nil =>
    intro st
    simp only [List.foldl_nil, List.flatten_nil, List.filter_nil, List.append_nil]
    exact List.Sublist.refl _
  | cons l ls ih =>
    intro st
    rw [List.foldl_cons]
    refine (ih (lineStep st l)).trans ?_
    have h3 := List.Sublist.append (lineStep_filter st l)
      (List.Sublist.refl (ls.flatten.filter nonWs))
    rw [List.flatten_cons, List.filter_append, ← List.append_assoc]
    exact h3

theorem lineChunks_filter (text : List Char) :
    List.Sublist ((lineChunks text).flatten.filter nonWs) (text.filter nonWs) := by
  rw [lineChunks]
  refine (flushBuf_chunks_filter _).trans
    ((foldl_lineStep_filter (splitNl text) ⟨[], []⟩).trans ?_)
  simp only [List.append_nil, List.flatten_nil, List.filter_nil, List.nil_append]
  rw [splitNl_flatten]
  exact (List.filter_sublist text).filter nonWs

theorem sentSplitAux_ne_nil (prev : Char) (s : List Char) :
    sentSplitAux prev s ≠ [] := by
  cases s with
  | nil =>
    rw [sentSplitAux.eq_1]
    simp
  | cons c rest =>
    rw [sentSplitAux.eq_2]
    split
    · simp
    · cases sentSplitAux c rest <;> simp

theorem sentSplitAux_flatten (prev : Char) (s : List Char) :
    List.Sublist ((sentSplitAux prev s).flatten) s := by
  have H : ∀ n (prev : Char) (s : List Char), s.length ≤ n →
      List.Sublist ((sentSplitAux prev s).flatten) s := by
    intro n
    induction n with
    | zero =>
      intro prev s hs
      have he : s = [] := List.length_eq_zero.mp (Nat.le_zero.mp hs)
      subst he
      rw [sentSplitAux.eq_1]
      simp
    | succ n ih =>
      intro prev s hs
      cases s with
      | nil =>
        rw [sentSplitAux.eq_1]
        simp
      | cons c rest =>
        simp only [List.length_cons] at hs
        rw [sentSplitAux.eq_2]
        split
        · rw [List.flatten_cons, List.nil_append]
          have h0 : List.Sublist (rest.dropWhile isPySpace) rest :=
            (List.dropWhile_suffix _).sublist
          have hl : (rest.dropWhile isPySpace).length ≤ n := by
            have := h0.length_le
            omega
          exact ((ih ' ' _ hl).trans h0).trans (List.sublist_cons_self c rest)
        · cases hsp : sentSplitAux c rest with
          | nil => exact absurd hsp (sentSplitAux_ne_nil c rest)
          | cons l ls =>
            have ihr := ih c rest (by omega)
            rw [hsp] at ihr
            simp only [List.flatten_cons, List.cons_append] at ihr ⊢
            exact ihr.cons₂ c
  exact H s.length prev s (le_refl _)

theorem flatten_filter_sublist (q : List Char → Bool) (l : List (List Char)) :
    List.Sublist ((l.filter q).flatten) l.flatten := by
  induction l with
  | nil => simp
  | cons x xs ih =>
    rw [List.filter_cons]
    by_cases hq : q x = true
    · rw [if_pos hq]
      simp only [List.flatten_cons]
      exact List.Sublist.append (List.Sublist.refl x) ih
    · rw [if_neg (by simp [hq])]
      simp only [List.flatten_cons]
      exact ih.trans (List.sublist_append_right x xs.flatten)

theorem flatten_map_pyStrip (l : List (List Char)) :
    List.Sublist ((l.map pyStrip).flatten) l.flatten := by
  induction l with
  | nil => simp
  | cons x xs ih =>
    simp only [List.map_cons, List.flatten_cons]
    exact List.Sublist.append (pyStrip_sublist x) ih

theorem sentenceParts_filter (chunk : List Char) :
    List.Sublist ((sentenceParts chunk).flatten.filter nonWs)
      (chunk.filter nonWs) := by
  rw [sentenceParts]
  have h1 := flatten_filter_sublist (fun p => decide (3 ≤ p.length))
    ((sentSplitAux ' ' chunk).map pyStrip)
  have h2 := flatten_map_pyStrip (sentSplitAux ' ' chunk)
  have h3 := sentSplitAux_flatten ' ' chunk
  exact ((h1.trans h2).trans h3).filter nonWs

theorem chunks_parts_filter (l : List (List Char)) :
    List.Sublist (((l.map sentenceParts).flatten).flatten.filter nonWs)
      (l.flatten.filter nonWs) := by
  induction l with
  | nil => simp
  | cons x xs ih =>
    simp only [List.map_cons, List.flatten_cons]
    rw [List.flatten_append (sentenceParts x) _, List.filter_append,
      List.filter_append]
    exact List.Sublist.append (sentenceParts_filter x) ih

theorem split_sentences_order (text : List Char) :
    List.Sublist ((split_sentences text).flatten.filter nonWs)
      (text.filter nonWs) := by
  rw [split_sentences]
  exact (chunks_parts_filter (lineChunks (mdStrip text))).trans
    ((lineChunks_filter (mdStrip text)).trans ((mdStrip_sublist text).filter nonWs))

/-! ### Claims about playback cancellation, the LLM step and the STT server -/

/-- Claim C6: in `speak_response`, with the cancellation signal set-once
(both underlying flags are `threading.Event`s that are only set during a
session), once any `should_stop()` poll observes the signal no subsequent
chunk is ever played: every `sd.play` call in the trace happens at a clock
all of whose earlier polls read `false` — so the current chunk is at most
cut at its own poll, remaining chunks are abandoned, and an in-flight
background synthesis result is discarded unplayed (the model is total, so
no error is raised). -/
theorem C6_no_chunk_after_cancel (stop : Nat → Bool) (synth : Nat → Option Nat)
    (dur : Nat → Nat) (len : Nat) (hmono : StopMono stop) :
    eventsOk stop (speakTrace stop synth dur len) = true := by
  rw [speakTrace]
  split
  · rfl
  · exact speakAux_ok stop synth dur len hmono len 0 0 (synth 0) none []
      (fun u hu => absurd hu (Nat.not_lt_zero u)) rfl

/-- Witness for `C6_no_chunk_after_cancel`: three chunks, the signal set
from poll clock 1 on (during chunk 0's playback), each chunk active for
one poll — chunk 0 is played and cut, chunks 1 and 2 never play. -/
theorem C6_witness :
    eventsOk (fun t => decide (1 ≤ t))
      (speakTrace (fun t => decide (1 ≤ t)) (fun _ => some 0) (fun _ => 1) 3)
      = true :=
  C6_no_chunk_after_cancel (fun t => decide (1 ≤ t)) (fun _ => some 0)
    (fun _ => 1) 3
    (by intro m n hmn h; simp only [decide_eq_true_eq] at h ⊢; omega)

/-- Claim C8: `run_llm` returns the empty string on subprocess timeout and
on any other failure, and an empty response makes the pipeline produce no
speech (`speak_response` is never called) and return immediately to the
listening loop. -/
theorem C8_llm_failure_yields_silence :
    run_llm LLMOutcome.timeout = [] ∧
    run_llm LLMOutcome.failure = [] ∧
    mainRespond LLMOutcome.timeout = none ∧
    mainRespond LLMOutcome.failure = none ∧
    ∀ o, run_llm o = [] → mainRespond o = none := by
  refine ⟨rfl, rfl, rfl, rfl, ?_⟩
  intro o h
  simp [mainRespond, h]

/-- Witness for `C8_llm_failure_yields_silence`: a successful LLM call with
whitespace-only stdout also strips to empty and produces no speech. -/
theorem C8_witness :
    mainRespond (LLMOutcome.ok "   ".toList) = none :=
  C8_llm_failure_yields_silence.2.2.2.2 (LLMOutcome.ok "   ".toList) (by decide)

/-- Claim C7: every chunk emitted by `split_sentences` has length at least
3 after collapsing whitespace runs to single spaces, and the chunks appear
in the same relative order as their source text: the nonwhitespace
characters of the emitted chunks, concatenated in emission order, form a
subsequence of the nonwhitespace characters of the input in input order. -/
theorem C7_chunk_length_and_order (text : List Char) :
    ((split_sentences text).all fun c => decide (3 ≤ (collapseWs c).length)) = true ∧
    List.Sublist ((split_sentences text).flatten.filter nonWs)
      (text.filter nonWs) := by
  constructor
  · rw [List.all_eq_true]
    intro c hc
    simp only [split_sentences, List.mem_flatten, List.mem_map] at hc
    obtain ⟨parts, ⟨chunk, _, rfl⟩, hcmem⟩ := hc
    simpa using sentenceParts_collapse_len chunk c hcmem
  · exact split_sentences_order text

/-- Claim C9, counterexample.  A non-empty body for which the transcription
model is *not* invoked exactly once: the single-byte body `[0]` makes
`np.frombuffer` raise (buffer size not a multiple of the int16 element
size), the error propagates out of the handler, and the model is never
called. -/
theorem C9_counterexample :
    transcribeEndpoint (fun _ => []) 0 [0] = Except.error () ∧
    ([0] : List Nat) ≠ [] := by
  exact ⟨rfl, by decide⟩

/-- Claim C9, amended.  An empty body returns `{"text": "", "duration_ms":
0}` without invoking the model; a non-empty body whose length is a multiple
of two (so int16 decoding succeeds) invokes the model exactly once, on the
int16-decoded, `1/32768`-scaled samples; a non-empty body of odd length
raises before the model is invoked. -/
theorem C9_amended (stt : List ℚ → List Char) (e : Nat) (body : List Nat)
    (pcm : List Int) (hne : body ≠ []) (hdec : decodeInt16LE body = some pcm) :
    transcribeEndpoint stt e [] = Except.ok (([], 0), []) ∧
    transcribeEndpoint stt e body
      = Except.ok ((pyStrip (stt (scaleSamples pcm)), e), [scaleSamples pcm]) := by
  refine ⟨rfl, ?_⟩
  rw [transcribeEndpoint,
    if_neg (fun h => hne (List.length_eq_zero.mp h)), hdec]

/-- Witness for `C9_amended`: the two-byte body `[0x00, 0x80]` decodes to
the single sample `-32768` and yields one model invocation on `[-1]`. -/
theorem C9_witness :
    transcribeEndpoint (fun _ => "ok".toList) 7 [] = Except.ok (([], 0), []) ∧
    transcribeEndpoint (fun _ => "ok".toList) 7 [0, 128]
      = Except.ok ((pyStrip ("ok".toList), 7), [scaleSamples [-32768]]) :=
  C9_amended (fun _ => "ok".toList) 7 [0, 128] [-32768] (by decide) (by decide)

end WhisperPocket
